import Mathlib

/-!
Verification of the core logic of an MCP file-operations server
(`mcp-server.js`): sandboxed path resolution, exclusion-aware recursive
directory traversal, a line-based text-search engine, a single-file
search-and-replace, a single-pass PHP structural analyzer, and a
cross-file class-usage finder.

Strings are modelled as `List Char` (the JavaScript string is a sequence
of code units; all inputs here are plain text).  Filesystem trees are
modelled explicitly; platform primitives used by the source
(`path.resolve`, `String.prototype.includes`, `RegExp` on the restricted
pattern fragment the source produces, stable `Array.prototype.sort`) are
modelled by executable Lean functions, each documented at its
definition.
-/

namespace MCP

/-! ## Basic character and list-of-characters helpers -/

/-- Whitespace test, modelling the JavaScript regex class `\s` for the
ASCII whitespace characters that can occur in the analysed text. -/
def isSpaceChar (c : Char) : Bool :=
  c = ' ' || c = '\t' || c = '\n' || c = '\r' || c = '\x0b' || c = '\x0c'

/-- Word-character test, modelling the JavaScript regex class `\w`
(`[A-Za-z0-9_]`). -/
def isWordChar (c : Char) : Bool :=
  ('a' ≤ c && c ≤ 'z') || ('A' ≤ c && c ≤ 'Z') || ('0' ≤ c && c ≤ '9') || c = '_'

/-- Boolean prefix test on character lists (JavaScript
`String.prototype.startsWith`). -/
def isPrefixB : List Char → List Char → Bool
  | [], _ => true
  | _ :: _, [] => false
  | a :: as, b :: bs => a == b && isPrefixB as bs

/-- Boolean substring-containment test (JavaScript
`String.prototype.includes`): `isInfixB p l` is true iff `p` occurs as a
contiguous substring of `l`. -/
def isInfixB (p : List Char) : List Char → Bool
  | [] => isPrefixB p []
  | x :: xs => isPrefixB p (x :: xs) || isInfixB p xs

/-- Boolean suffix test (JavaScript `String.prototype.endsWith`). -/
def isSuffixB (p l : List Char) : Bool :=
  isPrefixB p.reverse l.reverse

/-- Split a character list on a separator character, modelling
JavaScript `String.prototype.split` with a one-character separator
(`"".split(sep)` gives `[""]`, a trailing separator yields a final empty
piece). -/
def splitOnChar (sep : Char) : List Char → List (List Char)
  | [] => [[]]
  | c :: rest =>
    if c = sep then [] :: splitOnChar sep rest
    else
      match splitOnChar sep rest with
      | h :: t => (c :: h) :: t
      | [] => [[c]]

/-- Join character lists with a separator character, modelling
JavaScript `Array.prototype.join` with a one-character separator. -/
def joinChar (sep : Char) : List (List Char) → List Char
  | [] => []
  | [s] => s
  | s :: rest => s ++ sep :: joinChar sep rest

/-- Strip whitespace from both ends of a character list (JavaScript
`String.prototype.trim`). -/
def trimChars (l : List Char) : List Char :=
  ((l.dropWhile isSpaceChar).reverse.dropWhile isSpaceChar).reverse

/-! ## Path Sandbox (`resolvePath`, source lines 50-56)

The source runs `path.resolve(PROJECT_ROOT, relativePath)` and rejects
the result unless its string form starts with `PROJECT_ROOT`'s string
form.  `PROJECT_ROOT` is an absolute path; we model it as its list of
path segments.  `path.resolve` is a platform primitive modelled here:
it joins the root segments with the relative path's segments (or drops
the root when the argument is itself absolute), then normalizes by
dropping empty and `.` segments and letting `..` pop the previous
segment, never rising above the filesystem root. -/

/-- Normalization step of `path.resolve`: `acc` holds the already
accepted segments in reverse order. -/
def normalizeInto (acc : List (List Char)) : List (List Char) → List (List Char)
  | [] => acc.reverse
  | s :: rest =>
    if s = [] || s = ['.'] then normalizeInto acc rest
    else if s = ['.', '.'] then normalizeInto acc.tail rest
    else normalizeInto (s :: acc) rest

/-- Model of Node's `path.resolve(root, rel)` (POSIX): when `rel` is
absolute the root is ignored, otherwise the segments are concatenated;
the result is then normalized.  Returns the resolved segment list. -/
def pathResolve (rootSegs : List (List Char)) (rel : List Char) : List (List Char) :=
  let relSegs := splitOnChar '/' rel
  let base := if isPrefixB ['/'] rel then [] else rootSegs
  normalizeInto [] (base ++ relSegs)

/-- Render an absolute path from its segments: `"/" ++ segments joined
by "/"`. -/
def renderAbs (segs : List (List Char)) : List Char :=
  '/' :: joinChar '/' segs

/-- The error message thrown by `resolvePath` (source line 53). -/
def accessDeniedMsg : List Char :=
  ("Path escapes project root - access denied").data

/-- Embedding of `resolvePath` (source lines 50-56): resolve the
caller-supplied path against the project root and fail unless the
resolved absolute path's string form has the project root's string form
as a prefix. -/
def resolvePath (rootSegs : List (List Char)) (rel : List Char) :
    Except (List Char) (List Char) :=
  let absolutePath := renderAbs (pathResolve rootSegs rel)
  if isPrefixB (renderAbs rootSegs) absolutePath then .ok absolutePath
  else .error accessDeniedMsg

/-! ## Tree Walker (source lines 27-35, 91-129, 140-178)

A filesystem subtree is modelled by mutually inductive tree/forest types
(a forest models the entry list returned by `fs.readdir`, in directory
order).  Entry names are character lists. -/

mutual

/-- A filesystem entry: a file, or a directory with its entries. -/
inductive FSTree where
  | file (name : List Char) : FSTree
  | dir (name : List Char) (children : FSForest) : FSTree

/-- A list of filesystem entries, in `fs.readdir` order. -/
inductive FSForest where
  | nil : FSForest
  | cons (t : FSTree) (rest : FSForest) : FSForest

end

/-- Name of an entry. -/
def FSTree.name : FSTree → List Char
  | .file n => n
  | .dir n _ => n

/-- Whether an entry is a directory. -/
def FSTree.isDirB : FSTree → Bool
  | .file _ => false
  | .dir _ _ => true

/-- `EXCLUDE_DIRS` (source lines 27-35): directory-name fragments
excluded from searches and listings. -/
def EXCLUDE_DIRS : List (List Char) :=
  [("node_modules").data, ("vendor").data, (".git").data, (".idea").data,
   ("storage/framework").data, ("storage/logs").data, ("bootstrap/cache").data]

/-- `shouldExclude` (source lines 91-93): a path is excluded when any
`EXCLUDE_DIRS` fragment occurs in it as a substring. -/
def shouldExclude (filePath : List Char) : Bool :=
  EXCLUDE_DIRS.any fun dir => isInfixB dir filePath

/-- `String.prototype.startsWith(".")` on a character list. -/
def startsWithDot (l : List Char) : Bool :=
  isPrefixB ['.'] l

/-- Relative-path rendering: segments joined by `/` (the POSIX form of
`path.join` / `path.relative` on already-relative segment lists). -/
def renderRel (segs : List (List Char)) : List Char :=
  joinChar '/' segs

mutual

/-- Embedding of the `walk` closure of `getFilesRecursively` (source
lines 102-129) on a single entry.  `relDir` is the segment list of the
current directory relative to the project root (the walk starts at the
root, so it starts empty).  An entry is skipped when its name starts
with `.` or its relative path is excluded; files are collected when
their name ends with one of the requested extensions. -/
def walkTree (exts : List (List Char)) (relDir : List (List Char)) :
    FSTree → List (List Char)
  | .file name =>
    let rel := renderRel (relDir ++ [name])
    if startsWithDot name || shouldExclude rel then []
    else if exts.any (fun ext => isSuffixB ext name) then [rel] else []
  | .dir name children =>
    let rel := renderRel (relDir ++ [name])
    if startsWithDot name || shouldExclude rel then []
    else walkForest exts (relDir ++ [name]) children

/-- `walkTree` extended over an entry list, preserving `readdir`
order. -/
def walkForest (exts : List (List Char)) (relDir : List (List Char)) :
    FSForest → List (List Char)
  | .nil => []
  | .cons t rest => walkTree exts relDir t ++ walkForest exts relDir rest

end

/-- Embedding of `getFilesRecursively(PROJECT_ROOT, extensions)` (source
lines 102-129) applied to the forest of entries under the project root:
the flat list of collected relative paths. -/
def getFilesRecursively (exts : List (List Char)) (root : FSForest) :
    List (List Char) :=
  walkForest exts [] root

/-- Invariant carried down the walk: the first segment of the current
relative directory (when there is one) is not hidden — the walk only
descends into directories that passed the hidden-name check. -/
def dirOK : List (List Char) → Bool
  | [] => true
  | d :: _ => !startsWithDot d

/-! ### Tree rendering (`buildTree`, source lines 140-178)

`buildTree` filters the entry list by hidden-name prefix and by exact
name membership in `EXCLUDE_DIRS` (`EXCLUDE_DIRS.includes(e.name)`, not
the substring test used by `getFilesRecursively`), sorts directories
before files and otherwise by name, and renders box-drawing connectors.
JavaScript `Array.prototype.sort` is a stable sort; it is modelled by a
stable insertion sort.  `localeCompare` is modelled as code-point
lexicographic comparison, which agrees with it on the ASCII names used
here. -/

/-- Stable insertion into a sorted list: the new element goes after
every existing element `b` with `le b a`. -/
def insertStable (le : α → α → Bool) (a : α) : List α → List α
  | [] => [a]
  | b :: rest => if le b a then b :: insertStable le a rest else a :: b :: rest

/-- Stable sort by a boolean "less or equal" test, modelling JavaScript
`Array.prototype.sort` with a comparator (stable per the language
specification). -/
def stableSort (le : α → α → Bool) (l : List α) : List α :=
  l.foldl (fun acc a => insertStable le a acc) []

/-- Lexicographic code-point comparison on character lists, modelling
`localeCompare` on the ASCII names that occur here. -/
def lexLe : List Char → List Char → Bool
  | [], _ => true
  | _ :: _, [] => false
  | a :: as, b :: bs => a < b || (a == b && lexLe as bs)

/-- The comparator of `buildTree` (source lines 149-154): directories
sort before files, ties broken by name. -/
def treeEntryLe (a b : FSTree) : Bool :=
  if a.isDirB != b.isDirB then a.isDirB else lexLe a.name b.name

/-- Convert a forest to a plain entry list (for filtering/sorting). -/
def FSForest.toList : FSForest → List FSTree
  | .nil => []
  | .cons t rest => t :: rest.toList

/-- Renders the filtered, sorted entry list of one directory level,
`recurse` being the depth-limited recursion into subdirectories; the
last sibling gets the `└── ` connector and a blank continuation prefix,
the others `├── ` and `│   `. -/
def buildTreeLines (recurse : FSForest → List Char → List Char) :
    List FSTree → List Char → List Char
  | [], _ => []
  | e :: rest, pfx =>
    let isLast := rest.isEmpty
    let connector := if isLast then ("└── ").data else ("├── ").data
    let extension := if isLast then ("    ").data else ("│   ").data
    let line :=
      match e with
      | .file n => pfx ++ connector ++ n ++ ['\n']
      | .dir n children =>
        pfx ++ connector ++ n ++ ['/', '\n'] ++ recurse children (pfx ++ extension)
    line ++ buildTreeLines recurse rest pfx

/-- Depth-limited rendering with explicit remaining depth `gas`
(`gas = maxDepth - depth`; the source's `depth >= maxDepth` guard is
`gas = 0`).  Filters out hidden names and exact `EXCLUDE_DIRS` name
matches, sorts directories first then by name, and renders the
level. -/
def buildTreeAux : Nat → FSForest → List Char → List Char
  | 0, _, _ => []
  | g + 1, dirEntries, pfx =>
    let filtered := stableSort treeEntryLe
      ((dirEntries.toList.filter fun e => !startsWithDot e.name).filter
        fun e => !EXCLUDE_DIRS.contains e.name)
    buildTreeLines (buildTreeAux g) filtered pfx

/-- Embedding of `buildTree(dirPath, prefix, depth, maxDepth)` (source
lines 140-178), with the directory's entries given as a forest. -/
def buildTree (dirEntries : FSForest) (pfx : List Char)
    (depth maxDepth : Nat) : List Char :=
  buildTreeAux (maxDepth - depth) dirEntries pfx

/-! ## Text Search Engine (source lines 81-83, 551-601)

The handler compiles `new RegExp(escapeRegex(query), caseSensitive ? "g"
: "gi")` and tests each line.  `RegExp` is a platform primitive; it is
modelled here for exactly the pattern fragment that reaches it: plain
characters, backslash-escaped characters (which match literally), and
the unescaped `.` wildcard.  Unescaped structural operators
(`* + ? ^ $ ( ) [ ] | { }`) never survive `escapeRegex`, so the model
maps patterns containing them to `none` (and the compiled test to
`false`); nothing in the source reaches that case. -/

/-- The character class of `escapeRegex`'s regex (source line 82):
`[.*+?^${}()|[\]\\]`. -/
def isMetaChar (c : Char) : Bool :=
  ['.', '*', '+', '?', '^', '$', '\x7b', '\x7d', '(', ')', '|', '[', ']', '\\'].contains c

/-- Embedding of `escapeRegex` (source lines 81-83): prefix every regex
metacharacter with a backslash (`str.replace(/[.*+?^${}()|[\]\\]/g,
"\\$&")`). -/
def escapeRegex (s : List Char) : List Char :=
  s.flatMap fun c => if isMetaChar c then ['\\', c] else [c]

/-- A compiled pattern token: a literal character, or the `.`
wildcard. -/
inductive RTok where
  | lit (c : Char)
  | dot
deriving DecidableEq

/-- A structural metacharacter: one the token model does not interpret
(`escapeRegex` always escapes them, so they never reach `RegExp`
unescaped from this source). -/
def isStructuralMeta (c : Char) : Bool :=
  isMetaChar c && !(c = '.') && !(c = '\\')

/-- Lex a pattern string into tokens: `\c` is the literal `c`, `.` is
the wildcard, a plain character is itself; unescaped structural
metacharacters (and a trailing lone backslash) are unsupported. -/
def lexRegex : List Char → Option (List RTok)
  | [] => some []
  | c :: rest =>
    if c = '\\' then
      match rest with
      | [] => none
      | d :: rest2 => (lexRegex rest2).map (RTok.lit d :: ·)
    else if isStructuralMeta c then none
    else if c = '.' then (lexRegex rest).map (RTok.dot :: ·)
    else (lexRegex rest).map (RTok.lit c :: ·)

/-- Character comparison under the `i` flag: case-insensitive when `ci`
(both sides folded with `Char.toLower`), exact otherwise. -/
def charMatches (ci : Bool) (a b : Char) : Bool :=
  if ci then a.toLower == b.toLower else a == b

/-- Token-list matching against a prefix of the input. -/
def toksMatchFront (ci : Bool) : List RTok → List Char → Bool
  | [], _ => true
  | _ :: _, [] => false
  | RTok.lit c :: ts, x :: xs => charMatches ci c x && toksMatchFront ci ts xs
  | RTok.dot :: ts, _ :: xs => toksMatchFront ci ts xs

/-- Token-list search: the pattern matches starting at some position of
the input (the semantics of `RegExp.prototype.test`; the handler resets
`lastIndex` after each test, so every line is tested from position
0). -/
def toksSearch (ci : Bool) (ts : List RTok) : List Char → Bool
  | [] => toksMatchFront ci ts []
  | x :: xs => toksMatchFront ci ts (x :: xs) || toksSearch ci ts xs

/-- Model of `new RegExp(pat, flags).test(line)` for the supported
pattern fragment (`ci` is true when the flags contain `i`). -/
def regexTest (ci : Bool) (pat line : List Char) : Bool :=
  match lexRegex pat with
  | some ts => toksSearch ci ts line
  | none => false

/-- The per-line test of the `search_code` handler (source lines
554-555, 568): the query is escaped, compiled with flags `"g"` when
`case_sensitive` and `"gi"` otherwise, and tested against the line. -/
def searchLineTest (caseSensitive : Bool) (query line : List Char) : Bool :=
  regexTest (!caseSensitive) (escapeRegex query) line

/-- Case folding applied by the `i` flag: lowercase the whole string
when `ci`, identity otherwise. -/
def foldCase (ci : Bool) (l : List Char) : List Char :=
  if ci then l.map Char.toLower else l

/-- A per-file search result (source line 579): the matched lines (line
number, trimmed content truncated to 200 characters) and the file's
match count. -/
structure FileResult where
  file : List Char
  matchItems : List (Nat × List Char)
  matchCount : Nat
deriving DecidableEq

/-- The matched lines of one file (source lines 564-576): each line is
tested independently; a match records the 1-based line number and the
trimmed line truncated to 200 characters. -/
def fileMatchLines (caseSensitive : Bool) (query : List Char)
    (lines : List (List Char)) : List (Nat × List Char) :=
  (lines.enum.filter fun p => searchLineTest caseSensitive query p.2).map
    fun p => (p.1 + 1, (trimChars p.2).take 200)

/-- The kept per-file results (source lines 578-580): files with at
least one match, in scan order, with their match counts. -/
def searchResults (caseSensitive : Bool) (query : List Char)
    (files : List (List Char × List (List Char))) : List FileResult :=
  files.filterMap fun f =>
    let ms := fileMatchLines caseSensitive query f.2
    if ms.isEmpty then none else some ⟨f.1, ms, ms.length⟩

/-- The comparator of `results.sort((a, b) => b.matchCount -
a.matchCount)` (source line 587) as a "less or equal" test: `a` sorts no
later than `b` when `b.matchCount ≤ a.matchCount`. -/
def leCount (a b : FileResult) : Bool :=
  b.matchCount ≤ a.matchCount

/-- The search report (source lines 589-600): the total across all
scanned files (`totalMatches` is incremented once per matching line),
the number of matching files, and at most the top 50 files' match lists
after sorting by descending match count. -/
structure SearchReport where
  totalMatches : Nat
  fileCount : Nat
  results : List FileResult
deriving DecidableEq

/-- Embedding of the `search_code` handler (source lines 551-601) on the
already collected candidate files, given as (file name, content
lines). -/
def searchCode (caseSensitive : Bool) (query : List Char)
    (files : List (List Char × List (List Char))) : SearchReport :=
  let results := searchResults caseSensitive query files
  { totalMatches := (files.map fun f => (fileMatchLines caseSensitive query f.2).length).sum
    fileCount := results.length
    results := (stableSort leCount results).take 50 }

/-! ## Search-and-Replace (source lines 606-634) -/

/-- Model of JavaScript `String.prototype.replaceAll` with a non-empty
plain-string pattern `a :: as`: scan left to right, replacing each
non-overlapping occurrence. -/
def replaceAllNe (a : Char) (as repl : List Char) : List Char → List Char
  | [] => []
  | c :: rest =>
    if isPrefixB (a :: as) (c :: rest) then
      repl ++ replaceAllNe a as repl (rest.drop as.length)
    else c :: replaceAllNe a as repl rest
termination_by l => l.length
decreasing_by
  all_goals simp only [List.length_drop, List.length_cons]
  all_goals omega

/-- Model of JavaScript `String.prototype.replaceAll` on plain strings
(an empty pattern inserts the replacement at every position, as in
JavaScript). -/
def jsReplaceAll (search repl s : List Char) : List Char :=
  match search with
  | [] => repl ++ s.flatMap fun c => c :: repl
  | a :: as => replaceAllNe a as repl s

/-- One recorded change of `search_and_replace` (source line 615): line
number, trimmed before-text, trimmed after-text. -/
structure Change where
  line : Nat
  before : List Char
  after : List Char
deriving DecidableEq

/-- The per-line pass of `search_and_replace` (source lines 611-619):
every line containing the search text has all occurrences replaced and a
change recorded; `n` is the current 1-based line number.  Returns the
new line list and the change list. -/
def sarLines (search repl : List Char) (n : Nat) :
    List (List Char) → List (List Char) × List Change
  | [] => ([], [])
  | l :: rest =>
    let tailRes := sarLines search repl (n + 1) rest
    if isInfixB search l then
      let nl := jsReplaceAll search repl l
      (nl :: tailRes.1, ⟨n, trimChars l, trimChars nl⟩ :: tailRes.2)
    else (l :: tailRes.1, tailRes.2)

/-- Outcome of `search_and_replace`: the reported changes and the
content written back (`none` when nothing is written). -/
structure ReplaceOutcome where
  changes : List Change
  written : Option (List Char)
deriving DecidableEq

/-- Embedding of the `search_and_replace` handler (source lines
606-634): split into lines, replace per line, and rewrite the whole file
from the modified line list only when at least one change occurred
(source lines 621-627). -/
def searchAndReplace (content search repl : List Char) : ReplaceOutcome :=
  let lines := splitOnChar '\n' content
  let res := sarLines search repl 1 lines
  if res.2.isEmpty then { changes := res.2, written := none }
  else { changes := res.2, written := some (joinChar '\n' res.1) }

/-! ## Structural Analyzer (`analyze_php_file` handler, source lines 651-744)

A single forward pass over the file's lines.  Each rule is the faithful
semantics of the corresponding JavaScript regex, worked out below with
its backtracking behaviour.  The constant, property and method rules of
the source (lines 705-734) append to three further lists that no other
rule reads and that no field modelled here depends on (`insideClass` is
written only by the class rule); they are outside every claim and are
not modelled. -/

/-- Semantics of `\s+([^stop]+)` matching greedily at the start of `r`
(the tail of the line after the keyword): at least one whitespace
character, then the capture runs to the first `stop` character or to the
end of the line; when only whitespace remains for the capture, regex
backtracking hands the last whitespace character to the capture. -/
def capAfterSpaces (stop : Char) (r : List Char) : Option (List Char) :=
  match r with
  | [] => none
  | c :: r' =>
    if isSpaceChar c then
      let sps := r'.takeWhile isSpaceChar
      let p := r'.dropWhile isSpaceChar
      match p with
      | [] =>
        match sps.getLast? with
        | none => none
        | some d => some [d]
      | d :: _ =>
        if d = stop then
          match sps.getLast? with
          | none => none
          | some e => some [e]
        else some (p.takeWhile fun x => x ≠ stop)
    else none

/-- Semantics of the anchored `^\s*KW\s+([^stop]+)` (the namespace and
use rules, source lines 677 and 681): skip leading whitespace, require
the literal keyword, then capture per `capAfterSpaces`. -/
def matchAfterKw (kw : List Char) (stop : Char) (line : List Char) :
    Option (List Char) :=
  let t := line.dropWhile isSpaceChar
  if isPrefixB kw t then capAfterSpaces stop (t.drop kw.length) else none

/-- Semantics of a literal keyword followed by `\s+`: returns the rest
of the input after the whitespace run (the following regex element is
never whitespace, so greedy matching needs no give-back). -/
def kwSp (kw : List Char) (l : List Char) : Option (List Char) :=
  if isPrefixB kw l then
    match l.drop kw.length with
    | c :: rest => if isSpaceChar c then some (rest.dropWhile isSpaceChar) else none
    | [] => none
  else none

/-- The keyword alternation `(class|interface|trait|enum)` of the class
rule, in source order. -/
def classKinds : List (List Char) :=
  [("class").data, ("interface").data, ("trait").data, ("enum").data]

/-- Semantics of `(class|interface|trait|enum)\s+(\w+)` at the start of
`l`: the declared kind and name. -/
def kindName (l : List Char) : Option (List Char × List Char) :=
  classKinds.findSome? fun kw =>
    match kwSp kw l with
    | some r =>
      let w := r.takeWhile isWordChar
      if w.isEmpty then none else some (kw, w)
    | none => none

/-- Semantics of the anchored class-header regex
`^\s*(abstract\s+)?(final\s+)?(class|interface|trait|enum)\s+(\w+)`
(source line 689), with the optional-group backtracking made explicit:
each optional modifier is tried first and dropped when the rest of the
pattern fails. -/
def matchClassDecl (line : List Char) : Option (List Char × List Char) :=
  let t := line.dropWhile isSpaceChar
  let afterFinal := fun (l : List Char) =>
    match kwSp ("final").data l with
    | some l' => (kindName l').orElse fun _ => kindName l
    | none => kindName l
  match kwSp ("abstract").data t with
  | some t' => (afterFinal t').orElse fun _ => afterFinal t
  | none => afterFinal t

/-- Unanchored leftmost search: try the matcher at every start position
from the left (the semantics of an unanchored JavaScript regex). -/
def findMapTails (f : List Char → Option α) : List Char → Option α
  | [] => f []
  | x :: xs => (f (x :: xs)).orElse fun _ => findMapTails f xs

/-- Semantics of `extends\s+(\w+)` at the start of `l`. -/
def extendsAt (l : List Char) : Option (List Char) :=
  match kwSp ("extends").data l with
  | some r =>
    let w := r.takeWhile isWordChar
    if w.isEmpty then none else some w
  | none => none

/-- Semantics of the unanchored `/extends\s+(\w+)/` (source line
695). -/
def searchExtends (line : List Char) : Option (List Char) :=
  findMapTails extendsAt line

/-- Semantics of `implements\s+([^{]+)` at the start of `l`. -/
def implementsAt (l : List Char) : Option (List Char) :=
  if isPrefixB ("implements").data l then
    capAfterSpaces '\x7b' (l.drop ("implements").length)
  else none

/-- Semantics of the unanchored `/implements\s+([^{]+)/` (source line
698). -/
def searchImplements (line : List Char) : Option (List Char) :=
  findMapTails implementsAt line

/-- `implMatch[1].split(",").map(trim).filter(Boolean)` (source line
700): split the capture on commas, trim each piece, drop empties. -/
def splitImplements (cap : List Char) : List (List Char) :=
  ((splitOnChar ',' cap).map trimChars).filter fun s => !s.isEmpty

/-- The analyzer state (source lines 656-670): the structural facts the
claims concern, plus the `insideClass` loop flag (source line 670).  The
source's `constants`, `properties` and `methods` lists are independent
append-only outputs and are not modelled (see the section comment). -/
structure PhpAnalysis where
  namespaceName : Option (List Char) := none
  className : Option (List Char) := none
  classType : Option (List Char) := none
  extendsName : Option (List Char) := none
  implementsNames : List (List Char) := []
  traits : List (List Char) := []
  imports : List (List Char × Nat) := []
  insideClass : Bool := false
deriving DecidableEq

/-- The namespace rule (source lines 677-678): every matching line
overwrites the recorded namespace with its trimmed capture. -/
def nsRule (line : List Char) (st : PhpAnalysis) : PhpAnalysis :=
  match matchAfterKw ("namespace").data ';' line with
  | some cap => { st with namespaceName := some (trimChars cap) }
  | none => st

/-- The use rule (source lines 681-687): outside a class the trimmed
capture is recorded as an import with its line number; inside a class it
is recorded as a trait-use only when the raw capture contains no
backslash; otherwise the line is recorded nowhere. -/
def useRule (lineNum : Nat) (line : List Char) (st : PhpAnalysis) : PhpAnalysis :=
  match matchAfterKw ("use").data ';' line with
  | some cap =>
    if !st.insideClass then
      { st with imports := st.imports ++ [(trimChars cap, lineNum)] }
    else if !cap.contains '\\' then
      { st with traits := st.traits ++ [trimChars cap] }
    else st
  | none => st

/-- The class rule (source lines 689-702): fires only while no class
name has been recorded; records kind and name, sets `insideClass`, and
extracts the `extends` and `implements` clauses from the same line. -/
def classRule (line : List Char) (st : PhpAnalysis) : PhpAnalysis :=
  match matchClassDecl line with
  | some kn =>
    if st.className = none then
      let st1 := { st with
        classType := some kn.1, className := some kn.2, insideClass := true }
      let st2 :=
        match searchExtends line with
        | some e => { st1 with extendsName := some e }
        | none => st1
      match searchImplements line with
      | some cap => { st2 with implementsNames := splitImplements cap }
      | none => st2
    else st
  | none => st

/-- One line of the analyzer pass, applying the rules in source order
(namespace, use, class). -/
def stepLine (lineNum : Nat) (line : List Char) (st : PhpAnalysis) : PhpAnalysis :=
  classRule line (useRule lineNum line (nsRule line st))

/-- The analyzer loop over the lines, `n` being the 1-based number of
the first line. -/
def runLines (st : PhpAnalysis) (n : Nat) : List (List Char) → PhpAnalysis
  | [] => st
  | l :: rest => runLines (stepLine n l st) (n + 1) rest

/-- Embedding of the `analyze_php_file` handler's pass (source lines
654-735): split the content into lines and fold the rules over them. -/
def analyzePhp (content : List Char) : PhpAnalysis :=
  runLines {} 1 (splitOnChar '\n' content)

/-- The derived fully qualified name (source lines 737-739):
`namespace + "\" + className` when both were captured; JavaScript
truthiness makes an empty captured namespace (or class name) count as
absent. -/
def fullClassName (a : PhpAnalysis) : Option (List Char) :=
  match a.namespaceName, a.className with
  | some ns, some cn =>
    if ns.isEmpty || cn.isEmpty then none else some (ns ++ '\\' :: cn)
  | _, _ => none

/-- The namespace capture of a single line (trimmed), used to state
which occurrence the pass keeps. -/
def nsCapture (line : List Char) : Option (List Char) :=
  (matchAfterKw ("namespace").data ';' line).map trimChars

/-- The class-name capture of a single line. -/
def classCapName (line : List Char) : Option (List Char) :=
  (matchClassDecl line).map Prod.snd

/-- The class-kind capture of a single line. -/
def classCapKind (line : List Char) : Option (List Char) :=
  (matchClassDecl line).map Prod.fst

/-- Left-biased choice on options (`a` wins when present). -/
def firstSome (a b : Option α) : Option α :=
  match a with
  | some v => some v
  | none => b

/-- The trimmed capture of the last namespace-declaration line, if
any. -/
def lastNsCapture (lines : List (List Char)) : Option (List Char) :=
  lines.reverse.findSome? nsCapture

/-! ## Usage Finder (`find_class_usages` handler, source lines 749-793)

Four independent per-line classification regexes, all compiled with the
`i` flag; their semantics (with `\b` word boundaries and the
backtracking of `\s+.*` made explicit) are modelled as bounded scans
over start positions. -/

/-- Whether position `i` of `l` holds a word character (positions
outside the string count as non-word, as for `\b`). -/
def wordAt (l : List Char) (i : Nat) : Bool :=
  match l.get? i with
  | some c => isWordChar c
  | none => false

/-- The `\b` assertion at position `i` (between characters `i - 1` and
`i`): word-ness differs across the position. -/
def boundaryAt (l : List Char) (i : Nat) : Bool :=
  match i with
  | 0 => wordAt l 0
  | k + 1 => wordAt l k != wordAt l (k + 1)

/-- Case-insensitive prefix test (the `i` flag folds both sides). -/
def ciPrefix : List Char → List Char → Bool
  | [], _ => true
  | _ :: _, [] => false
  | a :: as, b :: bs => (a.toLower == b.toLower) && ciPrefix as bs

/-- Bounded existential over positions `0..n`. -/
def existsPos (n : Nat) (p : Nat → Bool) : Bool :=
  (List.range (n + 1)).any p

/-- Whether the character at position `i` exists and satisfies `p`. -/
def charAtIs (l : List Char) (i : Nat) (p : Char → Bool) : Bool :=
  match l.get? i with
  | some c => p c
  | none => false

/-- Whether every character of `l` in positions `[a, b)` is
whitespace. -/
def allSpaceRange (l : List Char) (a b : Nat) : Bool :=
  ((l.drop a).take (b - a)).all isSpaceChar

/-- `\bSHORT\b` at position `j` of `l`, case-insensitively. -/
def boundedAt (short l : List Char) (j : Nat) : Bool :=
  ciPrefix short (l.drop j) && boundaryAt l j && boundaryAt l (j + short.length)

/-- Semantics of `new RegExp(`KW\s+.*\bSHORT\b`, "i").test(line)`
(source lines 766, 769, 772): some position starts the keyword followed
by a whitespace character, and somewhere at or after the following
position the short name occurs with word boundaries (`.*` absorbs
everything in between). -/
def kwRefTest (kw short l : List Char) : Bool :=
  existsPos l.length fun i =>
    ciPrefix kw (l.drop i) && charAtIs l (i + kw.length) isSpaceChar &&
    existsPos l.length fun j =>
      decide (i + kw.length + 1 ≤ j) && boundedAt short l j

/-- Semantics of the `new\s+SHORT` alternative of the reference regex
(source line 775). -/
def newRefTest (short l : List Char) : Bool :=
  existsPos l.length fun i =>
    ciPrefix ("new").data (l.drop i) && charAtIs l (i + 3) isSpaceChar &&
    existsPos l.length fun j =>
      decide (i + 4 ≤ j) && allSpaceRange l (i + 3) j && ciPrefix short (l.drop j)

/-- Semantics of the `SHORT::` alternative of the reference regex
(source line 775). -/
def staticRefTest (short l : List Char) : Bool :=
  existsPos l.length fun i => ciPrefix (short ++ [':', ':']) (l.drop i)

/-- Semantics of the `:\s*SHORT\b` alternative of the reference regex
(source line 775). -/
def typeRefTest (short l : List Char) : Bool :=
  existsPos l.length fun i =>
    charAtIs l i (fun c => c == ':') &&
    existsPos l.length fun j =>
      decide (i + 1 ≤ j) && allSpaceRange l (i + 1) j &&
      ciPrefix short (l.drop j) && boundaryAt l (j + short.length)

/-- Semantics of `new RegExp(`(new\s+SHORT|SHORT::|:\s*SHORT\b)`,
"i").test(line)` (source line 775). -/
def genericRefTest (short l : List Char) : Bool :=
  newRefTest short l || staticRefTest short l || typeRefTest short l

/-- One located usage (source lines 767, 770, 773, 776): file, 1-based
line number, trimmed line. -/
structure Usage where
  file : List Char
  line : Nat
  content : List Char
deriving DecidableEq

/-- The usage report (source lines 785-791).  The `extends` and
`implements` category fields are renamed (`extends` is reserved in
Lean). -/
structure UsageReport where
  imports : List Usage
  extendsUses : List Usage
  implementsUses : List Usage
  references : List Usage
  totalUsages : Nat
deriving DecidableEq

/-- Short-name derivation (source lines 750-752): the last
backslash-separated segment when the input is qualified. -/
def shortNameOf (className : List Char) : List Char :=
  if className.contains '\\' then (splitOnChar '\\' className).getLastD []
  else className

/-- All lines of all files passing one classification test, as usage
records (source lines 757-778; files are given as (name, content)). -/
def usageScan (test : List Char → Bool)
    (files : List (List Char × List Char)) : List Usage :=
  files.flatMap fun f =>
    ((splitOnChar '\n' f.2).enum.filter fun p => test p.2).map
      fun p => ⟨f.1, p.1 + 1, trimChars p.2⟩

/-- Embedding of the `find_class_usages` handler (source lines 749-793)
on the candidate files' contents: the four category lists and the
aggregated total (source lines 785-786). -/
def findClassUsages (className : List Char)
    (files : List (List Char × List Char)) : UsageReport :=
  let short := shortNameOf className
  let imps := usageScan (kwRefTest ("use").data short) files
  let exts := usageScan (kwRefTest ("extends").data short) files
  let impls := usageScan (kwRefTest ("implements").data short) files
  let refs := usageScan (genericRefTest short) files
  { imports := imps, extendsUses := exts, implementsUses := impls,
    references := refs,
    totalUsages := imps.length + exts.length + impls.length + refs.length }

/-! ## Theorems: C1 -/

/-- **C1.** For every caller-supplied relative path (including paths
with any number of `..` segments), `resolvePath` either returns an
absolute path whose string form has the project root's string form as a
prefix, or fails with the access-denied error; it fails exactly when the
resolved absolute path's string form does not begin with the project
root's string form. -/
theorem C1_resolvePath_sandbox (rootSegs : List (List Char)) (rel : List Char) :
    (∀ s, resolvePath rootSegs rel = .ok s →
      isPrefixB (renderAbs rootSegs) s = true) ∧
    (resolvePath rootSegs rel = .error accessDeniedMsg ↔
      isPrefixB (renderAbs rootSegs) (renderAbs (pathResolve rootSegs rel)) = false) := by
  unfold resolvePath
  by_cases h : isPrefixB (renderAbs rootSegs) (renderAbs (pathResolve rootSegs rel)) = true
  · simp [h]
  · simp only [Bool.not_eq_true] at h
    simp [h]

/-- Witness for C1 at a concrete input: root `/home/proj`, relative path
`../../etc/passwd` resolves to `/etc/passwd`, which lacks the root
prefix, so `resolvePath` fails with the access-denied error. -/
theorem C1_resolvePath_sandbox_witness :
    resolvePath [("home").data, ("proj").data] ("../../etc/passwd").data =
      .error accessDeniedMsg :=
  (C1_resolvePath_sandbox [("home").data, ("proj").data]
    ("../../etc/passwd").data).2.mpr (by decide)

/-! ## Theorems: C2 -/

/-- A prefix of `l` is a prefix of `l ++ t`. -/
theorem isPrefixB_append {p l : List Char} (t : List Char)
    (h : isPrefixB p l = true) : isPrefixB p (l ++ t) = true := by
  induction p generalizing l with
  | nil => simp [isPrefixB]
  | cons a as ih =>
    cases l with
    | nil => simp [isPrefixB] at h
    | cons b bs =>
      simp only [isPrefixB, List.cons_append, Bool.and_eq_true] at h ⊢
      exact ⟨h.1, ih h.2⟩

/-- A suffix of `n` is a suffix of `pre ++ n`. -/
theorem isSuffixB_append_left {e n : List Char} (pre : List Char)
    (h : isSuffixB e n = true) : isSuffixB e (pre ++ n) = true := by
  unfold isSuffixB at h ⊢
  rw [List.reverse_append]
  exact isPrefixB_append _ h

/-- A rendered relative path ends with its last segment. -/
theorem renderRel_append_last (xs : List (List Char)) (n : List Char) :
    ∃ pre, renderRel (xs ++ [n]) = pre ++ n := by
  induction xs with
  | nil => exact ⟨[], rfl⟩
  | cons s rest ih =>
    obtain ⟨pre, hpre⟩ := ih
    cases hrest : rest ++ [n] with
    | nil => simp at hrest
    | cons y ys =>
      refine ⟨s ++ '/' :: pre, ?_⟩
      simp only [renderRel, List.cons_append, hrest, joinChar]
      rw [← hrest]
      simp only [renderRel] at hpre
      rw [hpre]
      simp

/-- Whether a rendered relative path starts with `.` is decided by its
first segment. -/
theorem startsWithDot_renderRel (d : List Char) (rest : List (List Char)) :
    startsWithDot (renderRel (d :: rest)) = startsWithDot d := by
  cases rest with
  | nil => rfl
  | cons y ys =>
    cases d with
    | nil => simp [renderRel, joinChar, startsWithDot, isPrefixB]
    | cons c cs => simp [renderRel, joinChar, startsWithDot, isPrefixB]

mutual

/-- Every path collected below one entry passed the exclusion check, is
not hidden, and ends with a requested extension. -/
theorem walkTree_good (exts : List (List Char)) :
    ∀ (relDir : List (List Char)) (t : FSTree), dirOK relDir = true →
    ∀ r ∈ walkTree exts relDir t,
      shouldExclude r = false ∧ startsWithDot r = false ∧
        exts.any (fun e => isSuffixB e r) = true
  | relDir, .file name, hdir => by
    intro r hr
    by_cases h1 : (startsWithDot name || shouldExclude (renderRel (relDir ++ [name]))) = true
    · simp [walkTree, h1] at hr
    · simp only [Bool.or_eq_true, not_or, Bool.not_eq_true] at h1
      by_cases h2 : exts.any (fun ext => isSuffixB ext name) = true
      · simp only [walkTree, h1.1, h1.2, Bool.or_self, Bool.false_eq_true, if_false,
          h2, if_true, List.mem_singleton] at hr
        subst hr
        refine ⟨h1.2, ?_, ?_⟩
        · cases relDir with
          | nil => exact h1.1
          | cons d ds =>
            rw [List.cons_append, startsWithDot_renderRel]
            simpa [dirOK] using hdir
        · obtain ⟨e, he, hse⟩ := List.any_eq_true.mp h2
          obtain ⟨pre, hpre⟩ := renderRel_append_last relDir name
          exact List.any_eq_true.mpr ⟨e, he, by rw [hpre]; exact isSuffixB_append_left pre hse⟩
      · simp only [Bool.not_eq_true] at h2
        simp [walkTree, h1.1, h1.2, h2] at hr
  | relDir, .dir name children, hdir => by
    intro r hr
    by_cases h1 : (startsWithDot name || shouldExclude (renderRel (relDir ++ [name]))) = true
    · simp [walkTree, h1] at hr
    · simp only [Bool.or_eq_true, not_or, Bool.not_eq_true] at h1
      simp only [walkTree, h1.1, h1.2, Bool.or_self, Bool.false_eq_true, if_false] at hr
      refine walkForest_good exts (relDir ++ [name]) children ?_ r hr
      cases relDir with
      | nil => simpa [dirOK] using h1.1
      | cons d ds => simpa [dirOK] using hdir

/-- Every path collected below a forest of entries passed the exclusion
check, is not hidden, and ends with a requested extension. -/
theorem walkForest_good (exts : List (List Char)) :
    ∀ (relDir : List (List Char)) (f : FSForest), dirOK relDir = true →
    ∀ r ∈ walkForest exts relDir f,
      shouldExclude r = false ∧ startsWithDot r = false ∧
        exts.any (fun e => isSuffixB e r) = true
  | _, .nil, _ => by intro r hr; simp [walkForest] at hr
  | relDir, .cons t rest, hdir => by
    intro r hr
    simp only [walkForest, List.mem_append] at hr
    rcases hr with hr | hr
    · exact walkTree_good exts relDir t hdir r hr
    · exact walkForest_good exts relDir rest hdir r hr

end

/-- **C2 (amended).** `collectFilesRecursive` (the walker of
`getFilesRecursively`) returns no path containing an `EXCLUDE_DIRS`
fragment as a substring and no path starting with the hidden-file
marker, and every returned path ends with one of the requested extension
suffixes.  (The one-level listing and the tree rendering instead exclude
entries by exact name membership in `EXCLUDE_DIRS` — see the
counterexample.) -/
theorem C2_collectFilesRecursive_invariant (exts : List (List Char))
    (root : FSForest) (r : List Char)
    (hr : r ∈ getFilesRecursively exts root) :
    (∀ d ∈ EXCLUDE_DIRS, isInfixB d r = false) ∧
    startsWithDot r = false ∧
    exts.any (fun e => isSuffixB e r) = true := by
  have h := walkForest_good exts [] root rfl r hr
  refine ⟨?_, h.2.1, h.2.2⟩
  intro d hd
  have hincl := h.1
  unfold shouldExclude at hincl
  rw [List.any_eq_false] at hincl
  simpa using hincl d hd

/-- Witness for C2 at a concrete tree: a `.php` file under `app/` is
collected, its path contains no exclusion fragment, is not hidden, and
ends with `.php`. -/
theorem C2_collectFilesRecursive_invariant_witness :
    ("app/User.php").data ∈
      getFilesRecursively [(".php").data]
        (.cons (.dir ("app").data (.cons (.file ("User.php").data) .nil)) .nil) ∧
    ((∀ d ∈ EXCLUDE_DIRS, isInfixB d (("app/User.php").data) = false) ∧
      startsWithDot (("app/User.php").data) = false ∧
      [(".php").data].any (fun e => isSuffixB e (("app/User.php").data)) = true) :=
  ⟨by decide,
    C2_collectFilesRecursive_invariant [(".php").data]
      (.cons (.dir ("app").data (.cons (.file ("User.php").data) .nil)) .nil)
      (("app/User.php").data) (by decide)⟩

/-- **C2 counterexample.** The claim's universal part fails for the tree
rendering: a directory named `vendorX` has a root-relative path that
contains the exclusion fragment `vendor` as a substring, yet `buildTree`
renders it (it filters only by exact name membership in
`EXCLUDE_DIRS`). -/
theorem C2_counterexample :
    shouldExclude (("vendorX").data) = true ∧
    buildTree (.cons (.dir ("vendorX").data .nil) .nil) [] 0 3 =
      ("└── vendorX/\n").data := by
  decide

/-! ## Theorems: C3 -/

/-- Unfolding of `lexRegex` on a plain (non-metacharacter) head. -/
theorem lexRegex_cons_plain (c : Char) (X : List Char) (hslash : ¬(c = '\\'))
    (hstruct : isStructuralMeta c = false) (hdot : ¬(c = '.')) :
    lexRegex (c :: X) = (lexRegex X).map (RTok.lit c :: ·) := by
  cases X with
  | nil => simp [lexRegex, hslash, hstruct, hdot]
  | cons y ys => simp [lexRegex, hslash, hstruct, hdot]

/-- Escaping turns every query character into a literal token: the
compiled pattern of a literal-mode search is the query's character
sequence. -/
theorem lexRegex_escape (q : List Char) :
    lexRegex (escapeRegex q) = some (q.map RTok.lit) := by
  induction q with
  | nil => rfl
  | cons c rest ih =>
    by_cases hm : isMetaChar c = true
    · have h1 : escapeRegex (c :: rest) = '\\' :: c :: escapeRegex rest := by
        simp [escapeRegex, hm]
      rw [h1]
      simp [lexRegex, ih]
    · have hm' : isMetaChar c = false := by
        cases h : isMetaChar c
        · rfl
        · exact absurd h hm
      have hslash : ¬(c = '\\') := fun h => hm (by subst h; decide)
      have hdot : ¬(c = '.') := fun h => hm (by subst h; decide)
      have hstruct : isStructuralMeta c = false := by
        simp [isStructuralMeta, hm']
      have h1 : escapeRegex (c :: rest) = c :: escapeRegex rest := by
        simp [escapeRegex, hm']
      rw [h1, lexRegex_cons_plain c _ hslash hstruct hdot, ih]
      rfl

/-- Matching an all-literal token list against a prefix is the folded
prefix test. -/
theorem toksMatchFront_lit (ci : Bool) (q l : List Char) :
    toksMatchFront ci (q.map RTok.lit) l =
      isPrefixB (foldCase ci q) (foldCase ci l) := by
  induction q generalizing l with
  | nil => cases ci <;> simp [toksMatchFront, foldCase, isPrefixB]
  | cons c cs ih =>
    cases l with
    | nil => cases ci <;> simp [toksMatchFront, foldCase, isPrefixB]
    | cons x xs =>
      have := ih xs
      cases ci <;>
        simp_all [toksMatchFront, foldCase, isPrefixB, charMatches]

/-- Searching an all-literal token list is the folded substring test. -/
theorem toksSearch_lit (ci : Bool) (q l : List Char) :
    toksSearch ci (q.map RTok.lit) l =
      isInfixB (foldCase ci q) (foldCase ci l) := by
  induction l with
  | nil =>
    cases ci <;> simp [toksSearch, isInfixB, toksMatchFront_lit, foldCase]
  | cons x xs ih =>
    have h1 := toksMatchFront_lit ci q (x :: xs)
    cases ci <;> simp_all [toksSearch, isInfixB, foldCase]

/-- **C3.** In literal mode every regex metacharacter of the query is
escaped before compilation, so a line matches exactly when it contains
the query as a literal substring — under lower-case folding by default,
exactly (no folding) when the caller requests case sensitivity.  The
closed conjuncts show the contrast with the expanded pattern: the
escaped query `a.b(c)` matches only its literal occurrence, while the
unescaped pattern `a.b` (wildcard dot) would also match `aXb`. -/
theorem C3_literal_search (caseSensitive : Bool) (query line : List Char) :
    (searchLineTest caseSensitive query line =
      isInfixB (foldCase (!caseSensitive) query) (foldCase (!caseSensitive) line)) ∧
    searchLineTest false (("a.b(c)").data) (("xa.b(c)y").data) = true ∧
    searchLineTest false (("a.b(c)").data) (("xaXb(c)y").data) = false ∧
    regexTest true (("a.b").data) (("xaXby").data) = true := by
  refine ⟨?_, by decide, by decide, by decide⟩
  unfold searchLineTest regexTest
  rw [lexRegex_escape]
  exact toksSearch_lit _ _ _

/-! ## Theorems: C4 and C10 -/

/-- Elements of a stable insertion are the new element or old ones. -/
theorem mem_insertStable {le : α → α → Bool} (a : α) (l : List α) :
    ∀ x ∈ insertStable le a l, x = a ∨ x ∈ l := by
  induction l with
  | nil => intro x hx; simp [insertStable] at hx; exact Or.inl hx
  | cons b rest ih =>
    intro x hx
    by_cases h : le b a = true
    · simp only [insertStable, h, if_true, List.mem_cons] at hx
      rcases hx with hx | hx
      · exact Or.inr (by simp [hx])
      · rcases ih x hx with hx | hx
        · exact Or.inl hx
        · exact Or.inr (List.mem_cons_of_mem _ hx)
    · simp only [insertStable, h, Bool.false_eq_true, if_false, List.mem_cons] at hx
      rcases hx with hx | hx | hx
      · exact Or.inl hx
      · exact Or.inr (by simp [hx])
      · exact Or.inr (List.mem_cons_of_mem _ hx)

/-- Stable insertion preserves sortedness for a total transitive
comparison. -/
theorem insertStable_pairwise {le : α → α → Bool}
    (htot : ∀ a b, le a b = true ∨ le b a = true)
    (htrans : ∀ a b c, le a b = true → le b c = true → le a c = true)
    (a : α) (l : List α) (hl : l.Pairwise fun x y => le x y = true) :
    (insertStable le a l).Pairwise fun x y => le x y = true := by
  induction l with
  | nil => simp [insertStable]
  | cons b rest ih =>
    rw [List.pairwise_cons] at hl
    by_cases h : le b a = true
    · simp only [insertStable, h, if_true]
      rw [List.pairwise_cons]
      refine ⟨?_, ih hl.2⟩
      intro y hy
      rcases mem_insertStable a rest y hy with hy | hy
      · subst hy; exact h
      · exact hl.1 y hy
    · simp only [insertStable, h, Bool.false_eq_true, if_false]
      rw [List.pairwise_cons]
      have hab : le a b = true := (htot a b).resolve_right fun hba => h hba
      refine ⟨?_, List.pairwise_cons.mpr hl⟩
      intro y hy
      rcases List.mem_cons.mp hy with hy | hy
      · subst hy; exact hab
      · exact htrans a b y hab (hl.1 y hy)

/-- A stable sort is sorted for a total transitive comparison. -/
theorem stableSort_pairwise {le : α → α → Bool}
    (htot : ∀ a b, le a b = true ∨ le b a = true)
    (htrans : ∀ a b c, le a b = true → le b c = true → le a c = true)
    (l : List α) :
    (stableSort le l).Pairwise fun x y => le x y = true := by
  suffices h : ∀ acc : List α, acc.Pairwise (fun x y => le x y = true) →
      (l.foldl (fun acc a => insertStable le a acc) acc).Pairwise
        fun x y => le x y = true by
    exact h [] (by simp)
  induction l with
  | nil => intro acc hacc; exact hacc
  | cons a rest ih =>
    intro acc hacc
    exact ih _ (insertStable_pairwise htot htrans a acc hacc)

/-- `leCount` is total. -/
theorem leCount_total (a b : FileResult) :
    leCount a b = true ∨ leCount b a = true := by
  unfold leCount
  rcases Nat.le_total b.matchCount a.matchCount with h | h
  · exact Or.inl (by simpa using h)
  · exact Or.inr (by simpa using h)

/-- `leCount` is transitive. -/
theorem leCount_trans (a b c : FileResult)
    (h1 : leCount a b = true) (h2 : leCount b c = true) :
    leCount a c = true := by
  unfold leCount at h1 h2 ⊢
  simp only [decide_eq_true_eq] at h1 h2 ⊢
  omega

/-- **C4.** The search report's per-file match lists are ordered by
descending per-file match count, at most the top 50 files are returned,
and the reported total is aggregated across all scanned files.  The
closed conjunct instantiates the ranking at files with match counts
`[3, 1, 5]`, reported in the order `[5, 3, 1]`. -/
theorem C4_search_ranking (caseSensitive : Bool) (query : List Char)
    (files : List (List Char × List (List Char))) :
    ((searchCode caseSensitive query files).results.Pairwise
      fun a b => b.matchCount ≤ a.matchCount) ∧
    (searchCode caseSensitive query files).results.length ≤ 50 ∧
    (searchCode caseSensitive query files).totalMatches =
      (files.map fun f => (fileMatchLines caseSensitive query f.2).length).sum ∧
    ((searchCode false (("x").data)
        [((("f1").data), [("x").data, ("x").data, ("x").data]),
         ((("f2").data), [("x").data]),
         ((("f3").data),
           [("x").data, ("x").data, ("x").data, ("x").data, ("x").data])]).results.map
      (fun r => r.matchCount) = [5, 3, 1]) := by
  refine ⟨?_, ?_, rfl, by decide⟩
  · have hs := stableSort_pairwise leCount_total leCount_trans
      (searchResults caseSensitive query files)
    have ht : (searchCode caseSensitive query files).results.Pairwise
        fun x y => leCount x y = true :=
      List.Pairwise.sublist (List.take_sublist 50 _) hs
    refine ht.imp ?_
    intro a b hab
    simpa [leCount] using hab
  · show ((stableSort leCount _).take 50).length ≤ 50
    rw [List.length_take]
    exact Nat.min_le_left _ _

/-- The total over all scanned files equals the total over the kept
(nonempty) per-file results: empty files contribute zero. -/
theorem totalMatches_eq_results_sum (caseSensitive : Bool) (query : List Char)
    (files : List (List Char × List (List Char))) :
    (files.map fun f => (fileMatchLines caseSensitive query f.2).length).sum =
      ((searchResults caseSensitive query files).map
        (fun r => r.matchCount)).sum := by
  induction files with
  | nil => rfl
  | cons f fs ih =>
    simp only [List.map_cons, List.sum_cons, searchResults, List.filterMap_cons] at ih ⊢
    cases hml : fileMatchLines caseSensitive query f.2 with
    | nil => simpa using ih
    | cons m ms =>
      simp only [List.isEmpty_cons, Bool.false_eq_true, if_false, List.map_cons,
        List.sum_cons]
      rw [ih]

/-- **C10.** The reported total match count is the number of matching
lines summed across all scanned files, and equals the sum of the
per-file match counts; a line containing the pattern several times
contributes exactly 1 (closed conjuncts: one line `foo foo`, query
`foo`, gives match count 1 and total 1). -/
theorem C10_total_is_line_count (caseSensitive : Bool) (query : List Char)
    (files : List (List Char × List (List Char))) :
    ((searchCode caseSensitive query files).totalMatches =
      ((searchResults caseSensitive query files).map
        (fun r => r.matchCount)).sum) ∧
    ((searchResults false (("foo").data)
        [((("f").data), [("foo foo").data])]).map (fun r => r.matchCount) = [1]) ∧
    (searchCode false (("foo").data)
        [((("f").data), [("foo foo").data])]).totalMatches = 1 := by
  refine ⟨?_, by decide, by decide⟩
  exact totalMatches_eq_results_sum caseSensitive query files

/-! ## Theorems: C9 -/

/-- When no line contains the search text, the per-line pass returns the
lines unchanged and records no change. -/
theorem sarLines_no_match (search repl : List Char) :
    ∀ (n : Nat) (lines : List (List Char)),
      (∀ l ∈ lines, isInfixB search l = false) →
      sarLines search repl n lines = (lines, []) := by
  intro n lines
  induction lines generalizing n with
  | nil => intro _; rfl
  | cons l rest ih =>
    intro h
    have hl := h l (List.mem_cons_self l rest)
    simp only [sarLines, ih (n + 1) fun x hx => h x (List.mem_cons_of_mem _ hx), hl,
      Bool.false_eq_true, if_false]

/-- **C9.** If no line of the file contains the search text as a literal
substring, `search_and_replace` performs no write at all and reports
zero changes; and the file is rewritten only when at least one line
changed. -/
theorem C9_replace_no_match_no_write (content search repl : List Char) :
    ((∀ l ∈ splitOnChar '\n' content, isInfixB search l = false) →
      (searchAndReplace content search repl).changes = [] ∧
      (searchAndReplace content search repl).written = none) ∧
    (∀ c, (searchAndReplace content search repl).written = some c →
      (searchAndReplace content search repl).changes ≠ []) := by
  constructor
  · intro h
    have hs := sarLines_no_match search repl 1 _ h
    simp [searchAndReplace, hs]
  · intro c hc
    simp only [searchAndReplace] at hc ⊢
    by_cases hres : (sarLines search repl 1 (splitOnChar '\n' content)).2.isEmpty = true
    · simp [hres] at hc
    · simp only [hres, Bool.false_eq_true, if_false]
      intro heq
      rw [heq] at hres
      exact hres rfl

/-- Witness for C9: a file `hello\nworld` with search text `foo` (no
occurrences) reports zero changes and is not written. -/
theorem C9_replace_no_match_no_write_witness :
    (∀ l ∈ splitOnChar '\n' (("hello\nworld").data),
      isInfixB (("foo").data) l = false) ∧
    (searchAndReplace (("hello\nworld").data) (("foo").data)
      (("bar").data)).changes = [] ∧
    (searchAndReplace (("hello\nworld").data) (("foo").data)
      (("bar").data)).written = none :=
  ⟨by decide,
    (C9_replace_no_match_no_write (("hello\nworld").data) (("foo").data)
      (("bar").data)).1 (by decide)⟩

/-! ## Theorems: C5, C6, C7 -/

/-- `firstSome` is associative. -/
theorem firstSome_assoc (a b c : Option α) :
    firstSome (firstSome a b) c = firstSome a (firstSome b c) := by
  cases a <;> cases b <;> simp [firstSome]

/-- `findSome?` over an append is the left-biased choice of the two
halves. -/
theorem findSome?_append_firstSome (f : α → Option β) (xs ys : List α) :
    (xs ++ ys).findSome? f = firstSome (xs.findSome? f) (ys.findSome? f) := by
  induction xs with
  | nil => simp [List.findSome?, firstSome]
  | cons a l ih =>
    cases h : f a <;> simp [List.findSome?, h, ih, firstSome]

/-- The namespace rule in one equation: it overwrites the namespace with
the line's capture whenever the line matches, and touches nothing
else. -/
theorem nsRule_eq (line : List Char) (st : PhpAnalysis) :
    nsRule line st =
      { st with namespaceName := firstSome (nsCapture line) st.namespaceName } := by
  unfold nsRule nsCapture firstSome
  cases matchAfterKw ("namespace").data ';' line <;> simp

/-- The use rule changes only the `imports` and `traits` lists. -/
theorem useRule_preserves (n : Nat) (line : List Char) (st : PhpAnalysis) :
    (useRule n line st).className = st.className ∧
    (useRule n line st).classType = st.classType ∧
    (useRule n line st).insideClass = st.insideClass ∧
    (useRule n line st).namespaceName = st.namespaceName := by
  unfold useRule
  cases hm : matchAfterKw ("use").data ';' line with
  | none => simp
  | some cap =>
    by_cases h1 : st.insideClass = true
    · by_cases h2 : '\\' ∈ cap
      · simp [h1, h2]
      · simp [h1, h2]
    · simp only [Bool.not_eq_true] at h1
      simp [h1]

/-- The class rule changes neither the import nor the trait lists nor
the namespace. -/
theorem classRule_preserves (line : List Char) (st : PhpAnalysis) :
    (classRule line st).imports = st.imports ∧
    (classRule line st).traits = st.traits ∧
    (classRule line st).namespaceName = st.namespaceName := by
  unfold classRule
  cases matchClassDecl line with
  | none => simp
  | some kn =>
    by_cases h : st.className = none
    · cases searchExtends line <;> cases searchImplements line <;> simp [h]
    · simp [h]

/-- The class rule is inert once a class name has been recorded. -/
theorem classRule_of_some (line : List Char) (st : PhpAnalysis) (c : List Char)
    (h : st.className = some c) : classRule line st = st := by
  unfold classRule
  cases matchClassDecl line with
  | none => rfl
  | some kn => simp [h]

/-- The class rule is inert on a non-matching line. -/
theorem classRule_of_nomatch (line : List Char) (st : PhpAnalysis)
    (h : matchClassDecl line = none) : classRule line st = st := by
  unfold classRule
  rw [h]

/-- On the first matching class-header line, the class rule records the
declared kind and name and raises the inside-class flag. -/
theorem classRule_of_none_match (line : List Char) (st : PhpAnalysis)
    (kn : List Char × List Char) (h : st.className = none)
    (hm : matchClassDecl line = some kn) :
    (classRule line st).className = some kn.2 ∧
    (classRule line st).classType = some kn.1 ∧
    (classRule line st).insideClass = true := by
  unfold classRule
  rw [hm]
  cases searchExtends line <;> cases searchImplements line <;> simp [h]

/-- Once the class name is recorded, the rest of the pass changes
neither it nor the recorded kind. -/
theorem runLines_className_some (c : List Char) :
    ∀ (lines : List (List Char)) (n : Nat) (st : PhpAnalysis),
      st.className = some c →
      (runLines st n lines).className = some c ∧
      (runLines st n lines).classType = st.classType := by
  intro lines
  induction lines with
  | nil => intro n st h; exact ⟨h, rfl⟩
  | cons l rest ih =>
    intro n st h
    have hns : (nsRule l st).className = some c ∧ (nsRule l st).classType = st.classType := by
      rw [nsRule_eq]; exact ⟨h, rfl⟩
    have huse := useRule_preserves n l (nsRule l st)
    have h2 : (useRule n l (nsRule l st)).className = some c := by
      rw [huse.1, hns.1]
    have hstep : stepLine n l st = useRule n l (nsRule l st) := by
      unfold stepLine
      exact classRule_of_some l _ c h2
    show (runLines (stepLine n l st) (n + 1) rest).className = some c ∧
      (runLines (stepLine n l st) (n + 1) rest).classType = st.classType
    rw [hstep]
    have := ih (n + 1) (useRule n l (nsRule l st)) h2
    exact ⟨this.1, by rw [this.2, huse.2.1, hns.2]⟩

/-- `findSome?` steps over a `none` head. -/
theorem findSome?_cons_none {f : α → Option β} {a : α} {l : List α}
    (h : f a = none) : (a :: l).findSome? f = l.findSome? f := by
  simp [List.findSome?, h]

/-- `findSome?` stops at a `some` head. -/
theorem findSome?_cons_some {f : α → Option β} {a : α} {l : List α} {b : β}
    (h : f a = some b) : (a :: l).findSome? f = some b := by
  simp [List.findSome?, h]

/-- While no class name has been recorded, the pass records the first
matching class-header line's kind and name (first declaration wins). -/
theorem runLines_className_none :
    ∀ (lines : List (List Char)) (n : Nat) (st : PhpAnalysis),
      st.className = none →
      (runLines st n lines).className = lines.findSome? classCapName ∧
      (runLines st n lines).classType =
        firstSome (lines.findSome? classCapKind) st.classType := by
  intro lines
  induction lines with
  | nil => intro n st h; exact ⟨h, rfl⟩
  | cons l rest ih =>
    intro n st h
    have hns : (nsRule l st).className = none ∧ (nsRule l st).classType = st.classType := by
      rw [nsRule_eq]; exact ⟨h, rfl⟩
    have huse := useRule_preserves n l (nsRule l st)
    have h2 : (useRule n l (nsRule l st)).className = none := by
      rw [huse.1, hns.1]
    have h2t : (useRule n l (nsRule l st)).classType = st.classType := by
      rw [huse.2.1, hns.2]
    show (runLines (stepLine n l st) (n + 1) rest).className = _ ∧
      (runLines (stepLine n l st) (n + 1) rest).classType = _
    cases hm : matchClassDecl l with
    | none =>
      have hstep : stepLine n l st = useRule n l (nsRule l st) := by
        unfold stepLine
        exact classRule_of_nomatch l _ hm
      rw [hstep]
      have := ih (n + 1) (useRule n l (nsRule l st)) h2
      have hcn : classCapName l = none := by simp [classCapName, hm]
      have hck : classCapKind l = none := by simp [classCapKind, hm]
      rw [findSome?_cons_none hcn, findSome?_cons_none hck]
      exact ⟨this.1, by rw [this.2, h2t]⟩
    | some kn =>
      have hcl := classRule_of_none_match l (useRule n l (nsRule l st)) kn h2 hm
      have hrest := runLines_className_some kn.2 rest (n + 1) (stepLine n l st)
        (by unfold stepLine; exact hcl.1)
      have hcn : classCapName l = some kn.2 := by simp [classCapName, hm]
      have hck : classCapKind l = some kn.1 := by simp [classCapKind, hm]
      rw [findSome?_cons_some hcn, findSome?_cons_some hck]
      refine ⟨hrest.1, ?_⟩
      rw [hrest.2]
      show (classRule l (useRule n l (nsRule l st))).classType = _
      rw [hcl.2.1]
      rfl

/-- The namespace recorded by the pass is the last namespace
declaration's capture, falling back to the initial state's value. -/
theorem runLines_namespace :
    ∀ (lines : List (List Char)) (n : Nat) (st : PhpAnalysis),
      (runLines st n lines).namespaceName =
        firstSome (lastNsCapture lines) st.namespaceName := by
  intro lines
  induction lines with
  | nil => intro n st; rfl
  | cons l rest ih =>
    intro n st
    have hstep : (stepLine n l st).namespaceName =
        firstSome (nsCapture l) st.namespaceName := by
      unfold stepLine
      rw [(classRule_preserves l _).2.2, (useRule_preserves n l _).2.2.2, nsRule_eq]
    show (runLines (stepLine n l st) (n + 1) rest).namespaceName = _
    rw [ih (n + 1) (stepLine n l st), hstep, ← firstSome_assoc]
    have hlast : lastNsCapture (l :: rest) =
        firstSome (lastNsCapture rest) (nsCapture l) := by
      unfold lastNsCapture
      rw [List.reverse_cons, findSome?_append_firstSome]
      cases h : nsCapture l <;> simp [List.findSome?, h, firstSome]
    rw [hlast]

/-- **C5 (amended).** The analyzer records at most one namespace and at
most one primary class kind and name per file (single optional fields).
For the class, the first declaration wins: the recorded kind and name
are the first class-header line's captures.  For the namespace, each
matching declaration line overwrites the record, so the **last**
namespace declaration's capture is kept — not the first, as
claimed. -/
theorem C5_first_class_last_namespace (content : List Char) :
    (analyzePhp content).className =
      (splitOnChar '\n' content).findSome? classCapName ∧
    (analyzePhp content).classType =
      (splitOnChar '\n' content).findSome? classCapKind ∧
    (analyzePhp content).namespaceName =
      lastNsCapture (splitOnChar '\n' content) := by
  have hc := runLines_className_none (splitOnChar '\n' content) 1 {} rfl
  have hn := runLines_namespace (splitOnChar '\n' content) 1 {}
  refine ⟨hc.1, ?_, ?_⟩
  · show (runLines {} 1 (splitOnChar '\n' content)).classType = _
    rw [hc.2]
    cases (splitOnChar '\n' content).findSome? classCapKind <;> rfl
  · show (runLines {} 1 (splitOnChar '\n' content)).namespaceName = _
    rw [hn]
    cases lastNsCapture (splitOnChar '\n' content) <;> rfl

/-- **C5 counterexample.** With two namespace declaration lines the
analyzer keeps the second capture `B`, not the first occurrence `A`: the
claim that only the first occurrence is kept fails. -/
theorem C5_counterexample :
    nsCapture (("namespace A;").data) = some (("A").data) ∧
    nsCapture (("namespace B;").data) = some (("B").data) ∧
    (analyzePhp ("namespace A;\nnamespace B;").data).namespaceName =
      some (("B").data) ∧
    some (("B").data) ≠ some (("A").data) := by
  decide

/-- **C6 (amended).** A line matching the use shape is appended to
`usedTraits` iff a class header has been seen and the capture has no
namespace separator; it is recorded as an ordinary import (with its line
number) iff no class header has been seen; when a class header has been
seen and the capture contains a separator, the line is recorded in
neither list — not as an import, as claimed. -/
theorem C6_use_rule_classification (st : PhpAnalysis) (n : Nat)
    (line cap : List Char)
    (h : matchAfterKw ("use").data ';' line = some cap) :
    (st.insideClass = false →
      (stepLine n line st).imports = st.imports ++ [(trimChars cap, n)] ∧
      (stepLine n line st).traits = st.traits) ∧
    (st.insideClass = true → cap.contains '\\' = false →
      (stepLine n line st).imports = st.imports ∧
      (stepLine n line st).traits = st.traits ++ [trimChars cap]) ∧
    (st.insideClass = true → cap.contains '\\' = true →
      (stepLine n line st).imports = st.imports ∧
      (stepLine n line st).traits = st.traits) := by
  have hcr := fun st' => classRule_preserves line st'
  refine ⟨fun h1 => ?_, fun h1 h2 => ?_, fun h1 h2 => ?_⟩
  · unfold stepLine
    rw [(hcr _).1, (hcr _).2.1]
    unfold useRule
    rw [nsRule_eq]
    simp [h, h1]
  · have h2' : ¬('\\' ∈ cap) := by simpa using h2
    unfold stepLine
    rw [(hcr _).1, (hcr _).2.1]
    unfold useRule
    rw [nsRule_eq]
    simp [h, h1, h2']
  · have h2' : '\\' ∈ cap := by simpa using h2
    unfold stepLine
    rw [(hcr _).1, (hcr _).2.1]
    unfold useRule
    rw [nsRule_eq]
    simp [h, h1, h2']

/-- Witness for C6: inside a class (state with the flag raised), the
line `use X\Y;` matches the use shape with capture `X\Y` (containing a
separator) and is recorded in neither list. -/
theorem C6_use_rule_classification_witness :
    matchAfterKw (("use").data) ';' (("use X\\Y;").data) =
      some (("X\\Y").data) ∧
    (stepLine 2 (("use X\\Y;").data)
      ⟨none, none, none, none, [], [], [], true⟩).imports = [] ∧
    (stepLine 2 (("use X\\Y;").data)
      ⟨none, none, none, none, [], [], [], true⟩).traits = [] := by
  refine ⟨by decide, ?_, ?_⟩
  · have := (C6_use_rule_classification ⟨none, none, none, none, [], [], [], true⟩
      2 (("use X\\Y;").data) (("X\\Y").data) (by decide)).2.2 rfl (by decide)
    exact this.1
  · have := (C6_use_rule_classification ⟨none, none, none, none, [], [], [], true⟩
      2 (("use X\\Y;").data) (("X\\Y").data) (by decide)).2.2 rfl (by decide)
    exact this.2

/-- **C6 counterexample.** In a file whose second line `use X\Y;`
matches the use shape after a class header, the analyzer records the
line neither under imports nor under traits, contradicting the claim
that every non-trait-use case is recorded as an ordinary import. -/
theorem C6_counterexample :
    matchAfterKw (("use").data) ';' (("use X\\Y;").data) =
      some (("X\\Y").data) ∧
    (analyzePhp ("class A\nuse X\\Y;").data).imports = [] ∧
    (analyzePhp ("class A\nuse X\\Y;").data).traits = [] := by
  decide

/-- **C7.** On `namespace App\Models;` followed by
`class User extends Model implements Authenticatable`, the analyzer
reports namespace `App\Models`, class name `User` of kind `class`,
extends `Model`, implements exactly `["Authenticatable"]`, and the
derived fully qualified name `App\Models\User`. -/
theorem C7_analysis_scenario :
    (analyzePhp
      ("namespace App\\Models;\nclass User extends Model implements Authenticatable").data).namespaceName =
        some (("App\\Models").data) ∧
    (analyzePhp
      ("namespace App\\Models;\nclass User extends Model implements Authenticatable").data).className =
        some (("User").data) ∧
    (analyzePhp
      ("namespace App\\Models;\nclass User extends Model implements Authenticatable").data).classType =
        some (("class").data) ∧
    (analyzePhp
      ("namespace App\\Models;\nclass User extends Model implements Authenticatable").data).extendsName =
        some (("Model").data) ∧
    (analyzePhp
      ("namespace App\\Models;\nclass User extends Model implements Authenticatable").data).implementsNames =
        [("Authenticatable").data] ∧
    fullClassName (analyzePhp
      ("namespace App\\Models;\nclass User extends Model implements Authenticatable").data) =
        some (("App\\Models\\User").data) := by
  decide

/-! ## Theorems: C8 -/

/-- **C8.** The usage finder tests every line of every candidate file
against four independent, non-exclusive, case-insensitive patterns, and
the reported total is the sum of the four category lists' lengths.  The
closed conjuncts check the scenario: given one file containing
`use App\Models\User;` and another containing
`class Admin extends User`, `findUsages("User")` puts the first line
under imports, the second under extends, and reports two total usages;
a single line `use Foo; $x = User::make()` lands in both the import and
the reference categories (non-exclusive); and the all-uppercase variant
of the import line still matches (case-insensitive). -/
theorem C8_usage_finder (className : List Char)
    (files : List (List Char × List Char)) :
    ((findClassUsages className files).totalUsages =
      (findClassUsages className files).imports.length +
      (findClassUsages className files).extendsUses.length +
      (findClassUsages className files).implementsUses.length +
      (findClassUsages className files).references.length) ∧
    ((findClassUsages (("User").data)
        [((("a.php").data), ("use App\\Models\\User;").data),
         ((("b.php").data), ("class Admin extends User").data)]) =
      { imports := [⟨("a.php").data, 1, ("use App\\Models\\User;").data⟩],
        extendsUses := [⟨("b.php").data, 1, ("class Admin extends User").data⟩],
        implementsUses := [], references := [], totalUsages := 2 }) ∧
    (kwRefTest (("use").data) (("User").data)
      ("use Foo; $x = User::make()").data = true ∧
     genericRefTest (("User").data)
      ("use Foo; $x = User::make()").data = true) ∧
    kwRefTest (("use").data) (("User").data)
      ("USE APP\\MODELS\\USER;").data = true := by
  refine ⟨rfl, by decide, by decide, by decide⟩

end MCP
